import Mathlib

/-!
Verification of the Dilithium/Kyber parameter-tweak repository.

This file gives a shallow embedding of the tweaked challenge generators
(`poly_challenge_sha3`, `poly_challenge_sha3_streaming` from
`src/dilithium/src/challenge_sha3.c`, `poly_challenge_expanded` from
`challenge_expanded.c`), the rejection-policy helpers
(`rejection_tweaked.h`), the configuration records
(`config1_baseline.h`, `config3_challenge.h`, `config4_rejection.h`,
`params_tweaked.h`) and, modelled from the spec where the C source is not
part of the repository snapshot, the Kyber compression codec and the
signing rejection checks.

The SHA3-256 / SHAKE256 hash primitives are external collaborators
(spec section 1); they are represented by abstract byte functions.  A
challenge generator is therefore a function of the pseudorandom byte
stream the hash produces, exactly as the C code is.  C `uint8_t` buffers
become functions `Nat -> Nat` (with values < 256 on every byte a real
hash can produce); C `int32_t` coefficients become `Int`; the
potentially non-terminating rejection-sampling `do/while` loops become
fuel-indexed recursions returning `Option`.
-/

namespace KDTweaks

/-! ## Scheme constants (configs and params.h) -/

/-- Ring dimension, `#define N 256`. -/
def Npoly : Nat := 256

/-- Signature-side modulus, `#define Q 8380417`. -/
def Qdil : Nat := 8380417

/-- Encryption-side (Kyber) modulus, 3329. -/
def Qkyber : Nat := 3329

/-- `#define GAMMA1 (1 << 17)`. -/
def GAMMA1 : Int := 131072

/-- `#define CTILDEBYTES 32`. -/
def CTILDEBYTES : Nat := 32

/-- `SHA3_OUTPUT_BYTES`: SHA3-256 digest length. -/
def SHA3_OUTPUT_BYTES : Nat := 32

/-- `SHA3_ITERATIONS`: hash invocations filling the fixed buffer. -/
def SHA3_ITERATIONS : Nat := 4

/-- `SHA3_TOTAL_BYTES = 128`: the fixed challenge buffer size. -/
def SHA3_TOTAL_BYTES : Nat := 128

/-- SHAKE256 rate in bytes (`SHAKE256_RATE` from the XOF collaborator). -/
def SHAKE256_RATE : Nat := 136

/-! ## List helpers for 256-coefficient polynomials -/

/-- Read coefficient `k` of a polynomial represented as a `List Int`
(C array read `c->coeffs[k]`; all source reads are in bounds, the
default 0 is never exercised there). -/
def getNth (c : List Int) (k : Nat) : Int := c.getD k 0

/-- Number of nonzero coefficients of a polynomial. -/
def countNonzero : List Int → Nat
  | [] => 0
  | x :: xs => (if x = 0 then 0 else 1) + countNonzero xs

/-- One challenge placement, `c->coeffs[i] = c->coeffs[b]; c->coeffs[b] = v;`. -/
def place (c : List Int) (i b : Nat) (v : Int) : List Int :=
  (c.set i (getNth c b)).set b v

/-! ## Generic challenge sampling loop

`genLoop` is the common shape of the `for (i = N-TAU; i < N; ++i)` loops
of `poly_challenge_sha3`, `poly_challenge_sha3_streaming` and the
spec-modelled Standard variant: a byte source with state `σ`, a draw
function that performs the rejection-sampling `do/while`, one sign bit
per placement (`1 - 2*(signs & 1)`, then `signs >>= 1`). -/

/-- Sign value: C computes `1 - 2 * (signs & 1)` in `uint64_t` and
stores it into an `int32_t` coefficient, which on the reference
platform yields the mathematical value 1 or -1. -/
def signVal (sg : Nat) : Int := 1 - 2 * ((sg % 2 : Nat) : Int)

/-- Generic challenge loop over a fallible byte-draw `d`. -/
def genLoop {σ : Type} (d : σ → Nat → Option (Nat × σ)) :
    List Nat → List Int → Nat → σ → Option (List Int × Nat × σ)
  | [], cs, sg, s => some (cs, sg, s)
  | i :: is, cs, sg, s =>
    match d s i with
    | none => none
    | some (b, s') => genLoop d is (place cs i b (signVal sg)) (sg / 2) s'

/-- The do/while rejection loop shared by all draws built from a total
single-byte read function: `do { (b, s) = read s; } while (b > i)`. -/
def drawFrom {σ : Type} (read : σ → Nat × σ) : Nat → σ → Nat → Option (Nat × σ)
  | 0, _, _ => none
  | fuel + 1, s, i =>
    if i < (read s).1 then drawFrom read fuel (read s).2 i else some (read s)

/-! ## The buffered SHA3 challenge generator, `poly_challenge_sha3` -/

/-- Little-endian 64-bit accumulation of eight bytes,
`signs |= (uint64_t)buf[i] << (8*i)` for `i < 8` (for genuine byte
values `< 256` the bitwise or is exact addition). -/
def bytesLE8 (f : Nat → Nat) : Nat :=
  f 0 + 256 * (f 1 + 256 * (f 2 + 256 * (f 3 +
    256 * (f 4 + 256 * (f 5 + 256 * (f 6 + 256 * f 7))))))

/-- Zeroing loop `for (i = 0; i < N; ++i) c->coeffs[i] = 0;` acting on
the caller-supplied output polynomial. -/
def zeroAll (init : List Int) : List Int := init.map (fun _ => 0)

/-- The byte read of `poly_challenge_sha3`'s position loop:
`if (pos >= SHA3_TOTAL_BYTES) pos = 8; b = buf[pos++];`. -/
def bufRead (buf : Nat → Nat) (p : Nat) : Nat × Nat :=
  if 128 ≤ p then (buf 8, 9) else (buf p, p + 1)

/-- Fueled rejection-sampling draw of `poly_challenge_sha3`. -/
def sha3Draw (buf : Nat → Nat) (fuel p i : Nat) : Option (Nat × Nat) :=
  drawFrom (bufRead buf) fuel p i

/-- `poly_challenge_sha3`, as a function of the 128-byte buffer the four
SHA3-256 invocations produced.  `init` is the arbitrary prior content of
the caller's output polynomial; `fuel` bounds the rejection loop. -/
def sha3Challenge (buf : Nat → Nat) (tau fuel : Nat) (init : List Int) :
    Option (List Int) :=
  (genLoop (fun p i => sha3Draw buf fuel p i) (List.range' (256 - tau) tau)
      (zeroAll init) (bytesLE8 buf) 8).map (fun r => r.1)

/-! ## The SHAKE256-stream variants

`poly_challenge_expanded` and the Standard generator draw position bytes
from a continuously refillable SHAKE256 stream.  The squeezed stream is
represented by `sq : Nat -> Nat -> Nat`, where `sq blk k` is byte `k`
(`k < SHAKE256_RATE`) of the `blk`-th squeezed block. -/

/-- Byte read from the refillable stream:
`if (pos >= SHAKE256_RATE) { shake256_squeeze(buf, RATE, &state); pos = 0; }
b = buf[pos++];`.  State is (block index, position). -/
def squeezeRead (sq : Nat → Nat → Nat) (s : Nat × Nat) : Nat × (Nat × Nat) :=
  if 136 ≤ s.2 then (sq (s.1 + 1) 0, (s.1 + 1, 1)) else (sq s.1 s.2, (s.1, s.2 + 1))

/-- Fueled rejection-sampling draw over the SHAKE256 stream. -/
def streamDraw (sq : Nat → Nat → Nat) (fuel : Nat) (s : Nat × Nat) (i : Nat) :
    Option (Nat × (Nat × Nat)) :=
  drawFrom (squeezeRead sq) fuel s i

/-- Expanded coefficient value, `c->coeffs[b] = (signs & 7) % 5 - 2;`
(computed in `uint64_t` and stored into `int32_t`, which on the
reference platform yields the mathematical value `(signs & 7) % 5 - 2`). -/
def expVal (sg : Nat) : Int := ((sg % 8 % 5 : Nat) : Int) - 2

/-- The 3-bit-field mapping of the ExpandedRange variant on a field
value `f`: `(f mod 5) - 2`. -/
def expMap (f : Nat) : Int := ((f % 5 : Nat) : Int) - 2

/-- The main loop of `poly_challenge_expanded`, including the exact
`signs` refill quirk (`if (pos >= 8 && (i % 21) == 0)` with the
`pos + 8 <= SHAKE256_RATE` guard). -/
def expLoop (sq : Nat → Nat → Nat) (fuel : Nat) :
    List Nat → List Int → Nat → Nat × Nat → Option (List Int × Nat × (Nat × Nat))
  | [], cs, sg, s => some (cs, sg, s)
  | i :: is, cs, sg, s =>
    match streamDraw sq fuel s i with
    | none => none
    | some (b, s') =>
      if 8 ≤ s'.2 ∧ i % 21 = 0 then
        if s'.2 + 8 ≤ 136 then
          expLoop sq fuel is (place cs i b (expVal sg))
            (bytesLE8 (fun j => sq s'.1 (s'.2 + j))) (s'.1, s'.2 + 8)
        else expLoop sq fuel is (place cs i b (expVal sg)) (sg / 8) s'
      else expLoop sq fuel is (place cs i b (expVal sg)) (sg / 8) s'

/-- `poly_challenge_expanded`, as a function of the SHAKE256 stream. -/
def expChallenge (sq : Nat → Nat → Nat) (tau fuel : Nat) (init : List Int) :
    Option (List Int) :=
  (expLoop sq fuel (List.range' (256 - tau) tau) (zeroAll init)
      (bytesLE8 (sq 0)) (0, 8)).map (fun r => r.1)

/-- Modelled from the spec: the Standard challenge variant (the
reference `poly_challenge`, SHAKE256 based, alphabet {-1,+1}, one sign
bit per placement with a continuously refillable stream); its C source
is not part of the repository snapshot. -/
def stdChallenge (sq : Nat → Nat → Nat) (tau fuel : Nat) (init : List Int) :
    Option (List Int) :=
  (genLoop (fun s i => streamDraw sq fuel s i) (List.range' (256 - tau) tau)
      (zeroAll init) (bytesLE8 (sq 0)) (0, 8)).map (fun r => r.1)

/-- The exhaustion-intolerant draw: identical to `sha3Draw` except that
running off the end of the 128-byte buffer fails instead of wrapping to
position 8.  Success of this draw certifies that the fixed buffer was
never exhausted. -/
def drawNoWrap (buf : Nat → Nat) : Nat → Nat → Nat → Option (Nat × Nat)
  | 0, _, _ => none
  | fuel + 1, p, i =>
    if 128 ≤ p then none
    else if i < buf p then drawNoWrap buf fuel (p + 1) i else some (buf p, p + 1)

/-- `poly_challenge_sha3` restricted to runs that never exhaust the
128-byte buffer. -/
def sha3ChallengeNoWrap (buf : Nat → Nat) (tau fuel : Nat) (init : List Int) :
    Option (List Int) :=
  (genLoop (fun p i => drawNoWrap buf fuel p i) (List.range' (256 - tau) tau)
      (zeroAll init) (bytesLE8 buf) 8).map (fun r => r.1)

/-! ## The streaming variant, `poly_challenge_sha3_streaming`

The abstract hash collaborator appears as two byte functions:
`h0 k` is byte `k` of `SHA3-256(seed)` and `hc c k` is byte `k` of
`SHA3-256(seed || counter c)` with the 4-byte little-endian counter
whose first byte is `c`.  Note `hc 0` hashes `seed || {0,0,0,0}`,
which is a different input than plain `seed`. -/

/-- The 128-byte buffer of `poly_challenge_sha3`: block 0 is
`SHA3-256(seed)`, blocks 1..3 are `SHA3-256(seed || counter i)`. -/
def sha3Buf (h0 : Nat → Nat) (hcf : Nat → Nat → Nat) : Nat → Nat :=
  fun k => if k < 32 then h0 k else hcf (k / 32) (k % 32)

/-- State of the streaming generator: hash iteration `j`, read position
inside the current 32-byte digest, and the current digest content. -/
structure StreamSt where
  j : Nat
  pos : Nat
  blk : Nat → Nat

/-- One byte read of the streaming loop body:
`if (pos >= SHA3_OUTPUT_BYTES) { j++; if (j >= SHA3_ITERATIONS) j = 0;
counter[0] = j; hash(seed||counter); pos = (j == 0) ? 8 : 0; }
b = current_hash[pos++];`. -/
def stRead (hcf : Nat → Nat → Nat) (s : StreamSt) : Nat × StreamSt :=
  if 32 ≤ s.pos then
    let j2 := if 4 ≤ s.j + 1 then 0 else s.j + 1
    let p2 := if j2 = 0 then 8 else 0
    (hcf j2 p2, ⟨j2, p2 + 1, hcf j2⟩)
  else (s.blk s.pos, ⟨s.j, s.pos + 1, s.blk⟩)

/-- `poly_challenge_sha3_streaming`, as a function of the abstract hash. -/
def sha3Streaming (h0 : Nat → Nat) (hcf : Nat → Nat → Nat) (tau fuel : Nat)
    (init : List Int) : Option (List Int) :=
  (genLoop (fun s i => drawFrom (stRead hcf) fuel s i) (List.range' (256 - tau) tau)
      (zeroAll init) (bytesLE8 h0) ⟨0, 8, h0⟩).map (fun r => r.1)

/-- The streaming state that has consumed exactly the buffer bytes
before position `p` (for `8 ≤ p ≤ 128`, before any exhaustion). -/
def stOf (h0 : Nat → Nat) (hcf : Nat → Nat → Nat) (p : Nat) : StreamSt :=
  if p ≤ 32 then ⟨0, p, h0⟩
  else if p ≤ 64 then ⟨1, p - 32, hcf 1⟩
  else if p ≤ 96 then ⟨2, p - 64, hcf 2⟩
  else ⟨3, p - 96, hcf 3⟩

/-- Cyclic distance from reading position `p` to buffer index `k` in the
wrap-to-8 discipline of `poly_challenge_sha3`. -/
def cycDist (p k : Nat) : Nat :=
  if (if 128 ≤ p then 8 else p) ≤ k then k - (if 128 ≤ p then 8 else p)
  else (128 - (if 128 ≤ p then 8 else p)) + (k - 8)

/-! ## Parameter sets and derived sizes -/

/-- One signature-side configuration header: the primitive fields the
tweaks vary, plus the derived packing sizes. -/
structure DilConfig where
  kk : Nat
  ll : Nat
  eta : Nat
  tau : Nat
  omegaHint : Nat
  beta : Nat
  ctildebytes : Nat
  polyzPacked : Nat

/-- `CRYPTO_BYTES = CTILDEBYTES + L*POLYZ_PACKEDBYTES + POLYVECH_PACKEDBYTES`
with `POLYVECH_PACKEDBYTES = OMEGA + K`. -/
def cryptoBytes (c : DilConfig) : Nat :=
  c.ctildebytes + c.ll * c.polyzPacked + (c.omegaHint + c.kk)

/-- `config1_baseline.h`: K=4, L=4, ETA=2, TAU=39, OMEGA=80, BETA=78. -/
def config1 : DilConfig :=
  { kk := 4, ll := 4, eta := 2, tau := 39, omegaHint := 80, beta := 78,
    ctildebytes := 32, polyzPacked := 576 }

/-- `config3_challenge.h` / `MODIFIED_CHALLENGE_BOUNDS`: TAU=50,
OMEGA=70, BETA=100. -/
def config3 : DilConfig :=
  { kk := 4, ll := 4, eta := 2, tau := 50, omegaHint := 70, beta := 100,
    ctildebytes := 32, polyzPacked := 576 }

/-- `config4_rejection.h` / `RELAXED_REJECTION`: TAU=39, OMEGA=80,
BETA=100. -/
def config4 : DilConfig :=
  { kk := 4, ll := 4, eta := 2, tau := 39, omegaHint := 80, beta := 100,
    ctildebytes := 32, polyzPacked := 576 }

/-! ## Configuration validation, `params_tweaked.h` lines 91-101 -/

/-- `#if defined(TAU) && (TAU < 1 || TAU > N)` then `#error`. -/
def tauFatal (c : DilConfig) : Bool := c.tau < 1 || 256 < c.tau

/-- `#if defined(OMEGA) && (OMEGA < K || OMEGA > N*K)` then `#error`. -/
def omegaFatal (c : DilConfig) : Bool := c.omegaHint < c.kk || 256 * c.kk < c.omegaHint

/-- A configuration is fatally rejected (compile stops with `#error`)
iff TAU or OMEGA is out of range. -/
def cfgFatal (c : DilConfig) : Bool := tauFatal c || omegaFatal c

/-- `#if defined(BETA) && BETA < TAU * ETA` then `#warning "BETA should
typically equal TAU * ETA for consistency"`: the flag fires only when
BETA is strictly below TAU*ETA. -/
def betaWarn (c : DilConfig) : Bool := c.beta < c.tau * c.eta

/-! ## Rejection policies (Tweak 3)

The norm checks of `sign.c` are not part of the repository snapshot
(only `rejection_tweaked.h` and the config comments describing
`GAMMA1 - BETA` versus the doubled `BETA*2` bound are), so the
acceptance predicates are modelled from the spec. -/

/-- Modelled from the spec: a signing attempt as seen by the rejection
check - the response-vector infinity norm and the combined outcome of
all other (unchanged) checks; `sign.c` itself is missing from the
snapshot. -/
structure SignAttempt where
  znorm : Int
  othersOk : Bool

/-- Modelled from the spec: Strict policy, accept iff the response norm
is strictly below `GAMMA1 - BETA` and all other checks pass. -/
def strictAccept (beta : Int) (a : SignAttempt) : Bool :=
  decide (a.znorm < GAMMA1 - beta) && a.othersOk

/-- Modelled from the spec: RelaxedBound (`RELAXED_REJECTION_OPTION1`),
accept iff the response norm is strictly below `GAMMA1 - 2*BETA`,
other checks exactly as in Strict. -/
def relaxedAccept (beta : Int) (a : SignAttempt) : Bool :=
  decide (a.znorm < GAMMA1 - 2 * beta) && a.othersOk

/-- `should_bypass_rejection` from `rejection_tweaked.h`: draw one byte
and bypass iff `bypass % 10 == 0`. -/
def should_bypass_rejection (byte : Nat) : Bool := byte % 10 == 0

/-- ProbabilisticBypass (`RELAXED_REJECTION_OPTION2`): evaluate Strict;
only on failure draw one fresh byte and force-accept iff
`should_bypass_rejection`. -/
def probabilisticAccept (beta : Int) (a : SignAttempt) (byte : Nat) : Bool :=
  if strictAccept beta a then true else should_bypass_rejection byte

/-! ## Compression codec (claim C8)

The Kyber `compress/decompress` C source is not part of the repository
snapshot (only the surrounding scripts and documentation are), so the
codec is modelled from the spec. -/

/-- Modelled from the spec: `compress(x, bits)` is the nearest integer
to `x * 2^bits / Q` (round half up) reduced mod `2^bits`; the Kyber C
source is missing from the snapshot. -/
def compress (x bits : Nat) : Nat :=
  ((2 * x * 2 ^ bits + Qkyber) / (2 * Qkyber)) % 2 ^ bits

/-- Modelled from the spec: `decompress(v, bits)` is the nearest integer
to `v * Q / 2^bits` (round half up). -/
def decompress (v bits : Nat) : Nat :=
  (2 * v * Qkyber + 2 ^ bits) / 2 ^ (bits + 1)

/-- Round-trip error of the codec at `x`, measured modulo `Q`
(wraparound at the boundary). -/
def roundTripErr (x bits : Nat) : Nat :=
  min ((((decompress (compress x bits) bits : Int)) - (x : Int)).natAbs)
    (Qkyber - (((decompress (compress x bits) bits : Int)) - (x : Int)).natAbs)

/-- The error bound `⌈Q / 2^(bits+1)⌉`. -/
def errBound (bits : Nat) : Nat := (Qkyber + 2 ^ (bits + 1) - 1) / 2 ^ (bits + 1)

/-- The compression widths used by the encryption-side parameter sets:
du in {9,10,11} and dv in {3,4,5,6} across the documented presets (the
reference (10,4)/(11,5) sets, the high-compression du=9 dv=5 preset and
the Kyber1024 (10,6) configuration), together with the degenerate
width 0. -/
def codecBits : List Nat := [0, 3, 4, 5, 6, 9, 10, 11]

/-- Exhaustive check of the round-trip error bound over all widths in
`codecBits` and all coefficients below Q. -/
def codecOk : Bool :=
  codecBits.all (fun bits =>
    (List.range 3329).all (fun x => roundTripErr x bits ≤ errBound bits))

/-! ## Concrete inputs used by witnesses and counterexamples -/

/-- The all-zero 128-byte buffer (as produced by a hash collaborator
returning zero bytes). -/
def zbuf : Nat → Nat := fun _ => 0

/-- The all-zero SHAKE256 stream. -/
def zsq : Nat → Nat → Nat := fun _ _ => 0

/-- An all-zero prior content of the output polynomial. -/
def zinit : List Int := List.replicate 256 0

/-- A buffer agreeing with `zbuf` on the 128 buffer bytes only. -/
def zbufTail : Nat → Nat := fun k => if k < 128 then 0 else 99

/-- Output of `poly_challenge_sha3` on the all-zero buffer with TAU=39:
sign bits are all 0 (coefficient +1), every position byte is 0, so the
nonzero coefficients end up at index 0 and indices 218..255. -/
def outA : List Int := (1 : Int) :: (List.replicate 217 0 ++ List.replicate 38 1)

/-- Output of `poly_challenge_expanded` on the all-zero stream with
TAU=39: every 3-bit field is 0, mapping to -2. -/
def outB : List Int := (-2 : Int) :: (List.replicate 217 0 ++ List.replicate 38 (-2))

/-- A SHAKE256 stream whose first sign field is the 3-bit value 2
(mapping to the coefficient 0): byte 0 of block 0 is 2, all other bytes
are 0. -/
def cxSq : Nat → Nat → Nat := fun blk k => if blk = 0 ∧ k = 0 then 2 else 0

/-- Output of `poly_challenge_expanded` on `cxSq` with TAU=39: the first
placement writes the coefficient 0, so only 38 nonzero entries remain. -/
def cxOut : List Int := (-2 : Int) :: (List.replicate 218 0 ++ List.replicate 37 (-2))

/-- Abstract `SHA3-256(seed)` used by the streaming counterexample:
all bytes zero. -/
def cxH0 : Nat → Nat := fun _ => 0

/-- Abstract `SHA3-256(seed || counter c)` used by the streaming
counterexample: chosen so that a run with TAU=39 exhausts the 128-byte
buffer during the 38th placement, after which the buffered version
rereads `SHA3-256(seed)` while the streaming version recomputes
iteration 0 as `SHA3-256(seed || {0,0,0,0})` and reads the byte 200. -/
def cxHc : Nat → Nat → Nat := fun c k =>
  if c = 0 then (if k = 8 then 200 else 0)
  else if c = 1 ∧ k < 13 then 0 else 255

theorem countNonzero_set (c : List Int) (k : Nat) (v : Int) (hk : k < c.length) :
    countNonzero (c.set k v) + (if getNth c k = 0 then 0 else 1) =
      countNonzero c + (if v = 0 then 0 else 1) := by
  induction c generalizing k with
  | nil => simp at hk
  | cons x xs ih =>
    cases k with
    | zero => simp [countNonzero, getNth]; omega
    | succ k =>
      have hk' : k < xs.length := by simpa using hk
      have := ih k hk'
      simp only [List.set, countNonzero, getNth] at *
      simp only [List.getD_cons_succ]
      omega

theorem getNth_set_self (c : List Int) (k : Nat) (v : Int) (hk : k < c.length) :
    getNth (c.set k v) k = v := by
  induction c generalizing k with
  | nil => simp at hk
  | cons x xs ih =>
    cases k with
    | zero => simp [getNth]
    | succ k => simpa [getNth, List.set] using ih k (by simpa using hk)

theorem getNth_set_ne (c : List Int) (k j : Nat) (v : Int) (h : j ≠ k) :
    getNth (c.set k v) j = getNth c j := by
  induction c generalizing k j with
  | nil => simp [getNth]
  | cons x xs ih =>
    cases k with
    | zero =>
      cases j with
      | zero => exact absurd rfl h
      | succ j => simp [getNth, List.set]
    | succ k =>
      cases j with
      | zero => simp [getNth, List.set]
      | succ j => simpa [getNth, List.set] using ih k j (by omega)

theorem set_getNth_self (c : List Int) (k : Nat) :
    c.set k (getNth c k) = c := by
  induction c generalizing k with
  | nil => simp
  | cons x xs ih =>
    cases k with
    | zero => simp [getNth]
    | succ k => simpa [getNth, List.set] using ih k

theorem mem_of_mem_set (c : List Int) (k : Nat) (v x : Int) (hx : x ∈ c.set k v) :
    x ∈ c ∨ x = v := by
  induction c generalizing k with
  | nil => simp at hx
  | cons y ys ih =>
    cases k with
    | zero =>
      rcases List.mem_cons.mp hx with h | h
      · right; exact h
      · left; exact List.mem_cons_of_mem _ h
    | succ k =>
      rcases List.mem_cons.mp hx with h | h
      · left; exact h ▸ List.mem_cons_self _ _
      · rcases ih k h with h' | h'
        · left; exact List.mem_cons_of_mem _ h'
        · right; exact h'

theorem getNth_mem (c : List Int) (k : Nat) (hk : k < c.length) :
    getNth c k ∈ c := by
  induction c generalizing k with
  | nil => simp at hk
  | cons x xs ih =>
    cases k with
    | zero => simp [getNth]
    | succ k =>
      exact List.mem_cons_of_mem _ (ih k (by simpa using hk))

/-- Effect of one placement on length, the all-zero tail, the nonzero
count and the coefficient alphabet, given the loop invariant of
`poly_challenge` style sampling. -/
theorem place_invariant (c : List Int) (i b : Nat) (v : Int)
    (hlen : c.length = 256) (hb : b ≤ i) (hi : i < 256)
    (hz : ∀ j, i ≤ j → j < 256 → getNth c j = 0) :
    (place c i b v).length = 256 ∧
    (∀ j, i + 1 ≤ j → j < 256 → getNth (place c i b v) j = 0) ∧
    countNonzero (place c i b v) = countNonzero c + (if v = 0 then 0 else 1) ∧
    (∀ x ∈ place c i b v, x ∈ c ∨ x = v) := by
  have hblt : b < 256 := lt_of_le_of_lt hb hi
  have hlen1 : (c.set i (getNth c b)).length = 256 := by simp [hlen]
  refine ⟨by simp [place, hlen], ?_, ?_, ?_⟩
  · intro j hj1 hj2
    have hji : j ≠ i := by omega
    have hjb : j ≠ b := by omega
    rw [place, getNth_set_ne _ _ _ _ hjb, getNth_set_ne _ _ _ _ hji]
    exact hz j (by omega) hj2
  · have hci : getNth c i = 0 := hz i le_rfl hi
    by_cases hbi : b = i
    · subst hbi
      have hset : c.set b (getNth c b) = c := set_getNth_self c b
      rw [place, hset]
      have h1 := countNonzero_set c b v (by omega)
      rw [hci] at h1
      norm_num at h1
      omega
    · have h1 := countNonzero_set c i (getNth c b) (by omega)
      rw [hci] at h1
      norm_num at h1
      have h2 := countNonzero_set (c.set i (getNth c b)) b v (by omega)
      rw [getNth_set_ne _ _ _ _ (by omega : b ≠ i)] at h2
      rw [place]
      omega
  · intro x hx
    rcases mem_of_mem_set _ _ _ _ hx with hx1 | hx1
    · rcases mem_of_mem_set _ _ _ _ hx1 with hx2 | hx2
      · exact Or.inl hx2
      · exact Or.inl (hx2 ▸ getNth_mem c b (by omega))
    · exact Or.inr hx1

theorem drawFrom_le {σ : Type} (read : σ → Nat × σ) (fuel : Nat) (s : σ) (i b : Nat)
    (s' : σ) (h : drawFrom read fuel s i = some (b, s')) : b ≤ i := by
  induction fuel generalizing s with
  | zero => simp [drawFrom] at h
  | succ fuel ih =>
    rw [drawFrom] at h
    split at h
    · exact ih _ h
    · next hc =>
      injection h with h2
      rw [h2] at hc
      simpa using hc

theorem signVal_cases (sg : Nat) : signVal sg = 1 ∨ signVal sg = -1 := by
  have h : sg % 2 = 0 ∨ sg % 2 = 1 := Nat.mod_two_eq_zero_or_one sg
  rcases h with h | h <;> simp [signVal, h]

theorem signVal_ne_zero (sg : Nat) : signVal sg ≠ 0 := by
  rcases signVal_cases sg with h | h <;> simp [h]

/-- Loop invariant for `genLoop`: starting at index `i` with `k = 256 - i`
indices to go, a 256-long coefficient list that is zero from `i` on, the
loop (when it succeeds) adds exactly `k` nonzero coefficients, and every
coefficient of the result is an old one or a sign value. -/
theorem genLoop_invariant {σ : Type} (d : σ → Nat → Option (Nat × σ))
    (hd : ∀ s i b s', d s i = some (b, s') → b ≤ i) :
    ∀ (k i : Nat) (cs : List Int) (sg : Nat) (s : σ) (res : List Int × Nat × σ),
      i + k = 256 → cs.length = 256 →
      (∀ j, i ≤ j → j < 256 → getNth cs j = 0) →
      genLoop d (List.range' i k) cs sg s = some res →
      res.1.length = 256 ∧ countNonzero res.1 = countNonzero cs + k ∧
        (∀ x ∈ res.1, x ∈ cs ∨ x = 1 ∨ x = -1) := by
  intro k
  induction k with
  | zero =>
    intro i cs sg s res _ hlen _ hrun
    simp only [List.range', genLoop] at hrun
    cases hrun
    exact ⟨hlen, by simp, fun x hx => Or.inl hx⟩
  | succ k ih =>
    intro i cs sg s res hik hlen hz hrun
    rw [List.range'_succ, genLoop] at hrun
    cases hdr : d s i with
    | none => rw [hdr] at hrun; exact absurd hrun (by simp)
    | some bs =>
      rw [hdr] at hrun
      obtain ⟨b, s'⟩ := bs
      have hb : b ≤ i := hd s i b s' hdr
      have hi : i < 256 := by omega
      obtain ⟨hlen', hz', hcount', hmem'⟩ :=
        place_invariant cs i b (signVal sg) hlen hb hi hz
      rw [if_neg (signVal_ne_zero sg)] at hcount'
      obtain ⟨hl, hc, hm⟩ := ih (i + 1) _ (sg / 2) s' res (by omega) hlen' hz' hrun
      refine ⟨hl, by omega, ?_⟩
      intro x hx
      rcases hm x hx with h | h
      · rcases hmem' x h with h' | h'
        · exact Or.inl h'
        · rcases signVal_cases sg with hs | hs
          · exact Or.inr (Or.inl (h' ▸ hs))
          · exact Or.inr (Or.inr (h' ▸ hs))
      · exact Or.inr h

theorem zeroAll_eq_replicate (init : List Int) (h : init.length = 256) :
    zeroAll init = List.replicate 256 0 := by
  rw [zeroAll, List.map_const']
  rw [h]

theorem getNth_replicate_zero (n j : Nat) : getNth (List.replicate n 0) j = 0 := by
  induction n generalizing j with
  | zero => simp [getNth]
  | succ n ihn =>
    cases j with
    | zero => simp [getNth]
    | succ j =>
      rw [List.replicate, getNth, List.getD_cons_succ]
      exact ihn j

theorem countNonzero_replicate_zero (n : Nat) :
    countNonzero (List.replicate n 0) = 0 := by
  induction n with
  | zero => rfl
  | succ n ihn => simp [List.replicate, countNonzero, ihn]

/-- The exact nonzero count and alphabet of `poly_challenge_sha3`:
whenever the generator completes, the output has exactly `tau` nonzero
coefficients and every coefficient is 0, 1 or -1. -/
theorem sha3Challenge_weight (buf : Nat → Nat) (tau fuel : Nat) (init : List Int)
    (out : List Int) (htau : tau ≤ 256) (hinit : init.length = 256)
    (hrun : sha3Challenge buf tau fuel init = some out) :
    out.length = 256 ∧ countNonzero out = tau ∧
      (∀ x ∈ out, x = 0 ∨ x = 1 ∨ x = -1) := by
  rw [sha3Challenge] at hrun
  cases hres : genLoop (fun p i => sha3Draw buf fuel p i) (List.range' (256 - tau) tau)
      (zeroAll init) (bytesLE8 buf) 8 with
  | none => rw [hres] at hrun; exact absurd hrun (by simp)
  | some res =>
    rw [hres] at hrun
    simp only [Option.map_some'] at hrun
    injection hrun with hrun
    have hzl : zeroAll init = List.replicate 256 0 := zeroAll_eq_replicate init hinit
    have hinv := genLoop_invariant (fun p i => sha3Draw buf fuel p i)
      (fun s i b s' h => drawFrom_le (bufRead buf) fuel s i b s' h)
      tau (256 - tau) (zeroAll init) (bytesLE8 buf) 8 res (by omega)
      (by rw [hzl, List.length_replicate])
      (by intro j _ _; rw [hzl]; exact getNth_replicate_zero 256 j)
      hres
    obtain ⟨hl, hc, hm⟩ := hinv
    have hcz : countNonzero (zeroAll init) = 0 := by
      rw [hzl]; exact countNonzero_replicate_zero 256
    rw [← hrun]
    refine ⟨hl, by omega, ?_⟩
    intro x hx
    rcases hm x hx with h | h
    · left
      rw [hzl] at h
      exact List.eq_of_mem_replicate h
    · right; exact h

theorem expVal_eq_expMap (sg : Nat) : expVal sg = expMap (sg % 8) := rfl

theorem expVal_range (sg : Nat) : -2 ≤ expVal sg ∧ expVal sg ≤ 2 := by
  have h : sg % 8 % 5 < 5 := Nat.mod_lt _ (by norm_num)
  unfold expVal
  omega

/-- Weight and alphabet of the Standard variant, exactly as for the
SHA3 variant. -/
theorem stdChallenge_weight (sq : Nat → Nat → Nat) (tau fuel : Nat) (init : List Int)
    (out : List Int) (htau : tau ≤ 256) (hinit : init.length = 256)
    (hrun : stdChallenge sq tau fuel init = some out) :
    out.length = 256 ∧ countNonzero out = tau ∧
      (∀ x ∈ out, x = 0 ∨ x = 1 ∨ x = -1) := by
  rw [stdChallenge] at hrun
  cases hres : genLoop (fun s i => streamDraw sq fuel s i) (List.range' (256 - tau) tau)
      (zeroAll init) (bytesLE8 (sq 0)) (0, 8) with
  | none => rw [hres] at hrun; exact absurd hrun (by simp)
  | some res =>
    rw [hres] at hrun
    simp only [Option.map_some'] at hrun
    injection hrun with hrun
    have hzl : zeroAll init = List.replicate 256 0 := zeroAll_eq_replicate init hinit
    have hinv := genLoop_invariant (fun s i => streamDraw sq fuel s i)
      (fun s i b s' h => drawFrom_le (squeezeRead sq) fuel s i b s' h)
      tau (256 - tau) (zeroAll init) (bytesLE8 (sq 0)) (0, 8) res (by omega)
      (by rw [hzl, List.length_replicate])
      (by intro j _ _; rw [hzl]; exact getNth_replicate_zero 256 j)
      hres
    obtain ⟨hl, hc, hm⟩ := hinv
    have hcz : countNonzero (zeroAll init) = 0 := by
      rw [hzl]; exact countNonzero_replicate_zero 256
    rw [← hrun]
    refine ⟨hl, by omega, ?_⟩
    intro x hx
    rcases hm x hx with h | h
    · left
      rw [hzl] at h
      exact List.eq_of_mem_replicate h
    · right; exact h

/-- Loop invariant of `poly_challenge_expanded`: the placed value may be
zero (fields 2 and 7 map to 0), so only an upper bound on the nonzero
count holds; every coefficient stays in [-2, 2]. -/
theorem expLoop_invariant (sq : Nat → Nat → Nat) (fuel : Nat) :
    ∀ (k i : Nat) (cs : List Int) (sg : Nat) (s : Nat × Nat)
      (res : List Int × Nat × (Nat × Nat)),
      i + k = 256 → cs.length = 256 →
      (∀ j, i ≤ j → j < 256 → getNth cs j = 0) →
      expLoop sq fuel (List.range' i k) cs sg s = some res →
      res.1.length = 256 ∧ countNonzero res.1 ≤ countNonzero cs + k ∧
        (∀ x ∈ res.1, x ∈ cs ∨ (-2 ≤ x ∧ x ≤ 2)) := by
  intro k
  induction k with
  | zero =>
    intro i cs sg s res _ hlen _ hrun
    simp only [List.range', expLoop] at hrun
    cases hrun
    exact ⟨hlen, by simp, fun x hx => Or.inl hx⟩
  | succ k ih =>
    intro i cs sg s res hik hlen hz hrun
    rw [List.range'_succ, expLoop] at hrun
    cases hdr : streamDraw sq fuel s i with
    | none => rw [hdr] at hrun; exact absurd hrun (by simp)
    | some bs =>
      rw [hdr] at hrun
      obtain ⟨b, s'⟩ := bs
      have hb : b ≤ i := drawFrom_le (squeezeRead sq) fuel s i b s' hdr
      have hi : i < 256 := by omega
      obtain ⟨hlen', hz', hcount', hmem'⟩ :=
        place_invariant cs i b (expVal sg) hlen hb hi hz
      dsimp only at hrun
      have hnext : ∃ sg2 s2,
          expLoop sq fuel (List.range' (i + 1) k) (place cs i b (expVal sg)) sg2 s2 =
            some res := by
        by_cases h1 : 8 ≤ s'.2 ∧ i % 21 = 0
        · rw [if_pos h1] at hrun
          by_cases h2 : s'.2 + 8 ≤ 136
          · rw [if_pos h2] at hrun
            exact ⟨_, _, hrun⟩
          · rw [if_neg h2] at hrun
            exact ⟨_, _, hrun⟩
        · rw [if_neg h1] at hrun
          exact ⟨_, _, hrun⟩
      obtain ⟨sg2, s2, hrun'⟩ := hnext
      obtain ⟨hl, hc, hm⟩ := ih (i + 1) _ sg2 s2 res (by omega) hlen' hz' hrun'
      have hifle : (if expVal sg = 0 then 0 else 1) ≤ 1 := by
        split <;> omega
      refine ⟨hl, by omega, ?_⟩
      intro x hx
      rcases hm x hx with h | h
      · rcases hmem' x h with h' | h'
        · exact Or.inl h'
        · exact Or.inr (h' ▸ expVal_range sg)
      · exact Or.inr h

/-- Bounded weight and alphabet of `poly_challenge_expanded`: whenever
the generator completes, the output has at most `tau` nonzero
coefficients, each in [-2, 2]. -/
theorem expChallenge_weight (sq : Nat → Nat → Nat) (tau fuel : Nat) (init : List Int)
    (out : List Int) (htau : tau ≤ 256) (hinit : init.length = 256)
    (hrun : expChallenge sq tau fuel init = some out) :
    out.length = 256 ∧ countNonzero out ≤ tau ∧
      (∀ x ∈ out, -2 ≤ x ∧ x ≤ 2) := by
  rw [expChallenge] at hrun
  cases hres : expLoop sq fuel (List.range' (256 - tau) tau) (zeroAll init)
      (bytesLE8 (sq 0)) (0, 8) with
  | none => rw [hres] at hrun; exact absurd hrun (by simp)
  | some res =>
    rw [hres] at hrun
    simp only [Option.map_some'] at hrun
    injection hrun with hrun
    have hzl : zeroAll init = List.replicate 256 0 := zeroAll_eq_replicate init hinit
    obtain ⟨hl, hc, hm⟩ := expLoop_invariant sq fuel tau (256 - tau) (zeroAll init)
      (bytesLE8 (sq 0)) (0, 8) res (by omega)
      (by rw [hzl, List.length_replicate])
      (by intro j _ _; rw [hzl]; exact getNth_replicate_zero 256 j)
      hres
    have hcz : countNonzero (zeroAll init) = 0 := by
      rw [hzl]; exact countNonzero_replicate_zero 256
    rw [← hrun]
    refine ⟨hl, by omega, ?_⟩
    intro x hx
    rcases hm x hx with h | h
    · rw [hzl] at h
      have := List.eq_of_mem_replicate h
      subst this
      exact ⟨by norm_num, by norm_num⟩
    · exact h

/-! ## Simulation between byte sources -/

/-- Two draws in simulation: whenever the first succeeds, the second
yields the same byte from a related source state. -/
theorem genLoop_sim {σA σB : Type} (dA : σA → Nat → Option (Nat × σA))
    (dB : σB → Nat → Option (Nat × σB)) (R : σA → σB → Prop)
    (hsim : ∀ s t i b s', R s t → dA s i = some (b, s') →
      ∃ t', dB t i = some (b, t') ∧ R s' t') :
    ∀ (is : List Nat) (cs : List Int) (sg : Nat) (s : σA) (t : σB)
      (res : List Int × Nat × σA),
      R s t → genLoop dA is cs sg s = some res →
      ∃ t', genLoop dB is cs sg t = some (res.1, res.2.1, t') ∧ R res.2.2 t' := by
  intro is
  induction is with
  | nil =>
    intro cs sg s t res hR hrun
    simp only [genLoop] at hrun
    cases hrun
    exact ⟨t, rfl, hR⟩
  | cons i is ih =>
    intro cs sg s t res hR hrun
    rw [genLoop] at hrun
    cases hdr : dA s i with
    | none => rw [hdr] at hrun; exact absurd hrun (by simp)
    | some bs =>
      rw [hdr] at hrun
      obtain ⟨b, s'⟩ := bs
      obtain ⟨t', hdB, hR'⟩ := hsim s t i b s' hR hdr
      obtain ⟨t'', hrunB, hR''⟩ := ih _ _ s' t' res hR' hrun
      refine ⟨t'', ?_, hR''⟩
      rw [genLoop, hdB]
      exact hrunB

theorem drawNoWrap_sim_buffered (buf : Nat → Nat) :
    ∀ (fuel p i b p' : Nat), 8 ≤ p → p ≤ 128 →
      drawNoWrap buf fuel p i = some (b, p') →
      sha3Draw buf fuel p i = some (b, p') ∧ 8 ≤ p' ∧ p' ≤ 128 := by
  intro fuel
  induction fuel with
  | zero => intro p i b p' _ _ h; simp [drawNoWrap] at h
  | succ fuel ih =>
    intro p i b p' hp8 hp h
    rw [drawNoWrap] at h
    by_cases h128 : 128 ≤ p
    · rw [if_pos h128] at h; exact absurd h (by simp)
    · rw [if_neg h128] at h
      rw [sha3Draw, drawFrom]
      have hread : bufRead buf p = (buf p, p + 1) := if_neg h128
      rw [hread]
      by_cases hlt : i < buf p
      · rw [if_pos hlt] at h ⊢
        exact ih (p + 1) i b p' (by omega) (by omega) h
      · rw [if_neg hlt] at h ⊢
        injection h with h2
        injection h2 with h3 h4
        exact ⟨by rw [h3, h4], by omega, by omega⟩

/-- Before exhaustion, the streaming reader delivers exactly the bytes
of the 128-byte buffer of the buffered version, in order. -/
theorem stRead_stOf (h0 : Nat → Nat) (hcf : Nat → Nat → Nat) (p : Nat)
    (hp8 : 8 ≤ p) (hp : p < 128) :
    stRead hcf (stOf h0 hcf p) =
      (sha3Buf h0 hcf p, stOf h0 hcf (p + 1)) := by
  rcases lt_trichotomy p 32 with h1 | h1 | h1
  · have e1 : stOf h0 hcf p = ⟨0, p, h0⟩ := by
      unfold stOf; rw [if_pos (by omega)]
    have e2 : stOf h0 hcf (p + 1) = ⟨0, p + 1, h0⟩ := by
      unfold stOf; rw [if_pos (by omega)]
    rw [e1, e2]
    unfold stRead sha3Buf
    simp only
    rw [if_neg (by simp; omega), if_pos h1]
  · subst h1
    norm_num [stOf, stRead, sha3Buf]
  · rcases lt_trichotomy p 64 with h2 | h2 | h2
    · have e1 : stOf h0 hcf p = ⟨1, p - 32, hcf 1⟩ := by
        unfold stOf; rw [if_neg (by omega), if_pos (by omega)]
      have e2 : stOf h0 hcf (p + 1) = ⟨1, p + 1 - 32, hcf 1⟩ := by
        unfold stOf; rw [if_neg (by omega), if_pos (by omega)]
      rw [e1, e2]
      unfold stRead sha3Buf
      simp only
      rw [if_neg (by simp; omega), if_neg (by omega)]
      have hd : p / 32 = 1 := by omega
      have hm : p % 32 = p - 32 := by omega
      rw [hd, hm, show p - 32 + 1 = p + 1 - 32 by omega]
    · subst h2
      norm_num [stOf, stRead, sha3Buf]
    · rcases lt_trichotomy p 96 with h3 | h3 | h3
      · have e1 : stOf h0 hcf p = ⟨2, p - 64, hcf 2⟩ := by
          unfold stOf; rw [if_neg (by omega), if_neg (by omega), if_pos (by omega)]
        have e2 : stOf h0 hcf (p + 1) = ⟨2, p + 1 - 64, hcf 2⟩ := by
          unfold stOf; rw [if_neg (by omega), if_neg (by omega), if_pos (by omega)]
        rw [e1, e2]
        unfold stRead sha3Buf
        simp only
        rw [if_neg (by simp; omega), if_neg (by omega)]
        have hd : p / 32 = 2 := by omega
        have hm : p % 32 = p - 64 := by omega
        rw [hd, hm, show p - 64 + 1 = p + 1 - 64 by omega]
      · subst h3
        norm_num [stOf, stRead, sha3Buf]
      · have e1 : stOf h0 hcf p = ⟨3, p - 96, hcf 3⟩ := by
          unfold stOf
          rw [if_neg (by omega), if_neg (by omega), if_neg (by omega)]
        have e2 : stOf h0 hcf (p + 1) = ⟨3, p + 1 - 96, hcf 3⟩ := by
          unfold stOf
          rw [if_neg (by omega), if_neg (by omega), if_neg (by omega)]
        rw [e1, e2]
        unfold stRead sha3Buf
        simp only
        rw [if_neg (by simp; omega), if_neg (by omega)]
        have hd : p / 32 = 3 := by omega
        have hm : p % 32 = p - 96 := by omega
        rw [hd, hm, show p - 96 + 1 = p + 1 - 96 by omega]

theorem drawNoWrap_sim_streaming (h0 : Nat → Nat) (hcf : Nat → Nat → Nat) :
    ∀ (fuel p i b p' : Nat), 8 ≤ p → p ≤ 128 →
      drawNoWrap (sha3Buf h0 hcf) fuel p i = some (b, p') →
      drawFrom (stRead hcf) fuel (stOf h0 hcf p) i = some (b, stOf h0 hcf p') := by
  intro fuel
  induction fuel with
  | zero => intro p i b p' _ _ h; simp [drawNoWrap] at h
  | succ fuel ih =>
    intro p i b p' hp8 hp h
    rw [drawNoWrap] at h
    by_cases h128 : 128 ≤ p
    · rw [if_pos h128] at h; exact absurd h (by simp)
    · rw [if_neg h128] at h
      rw [drawFrom, stRead_stOf h0 hcf p hp8 (by omega)]
      by_cases hlt : i < sha3Buf h0 hcf p
      · rw [if_pos hlt] at h
        rw [if_pos hlt]
        exact ih (p + 1) i b p' (by omega) (by omega) h
      · rw [if_neg hlt] at h
        rw [if_neg hlt]
        injection h with h2
        injection h2 with h3 h4
        rw [h3, h4]

/-- Claim C10 (amended).  Refinement between the buffered and the
streaming SHA3 challenge generators: on any run in which the 128-byte
buffer is not exhausted (witnessed by success of the no-wrap variant),
`poly_challenge_sha3` and `poly_challenge_sha3_streaming` produce the
same polynomial.  On exhaustion they can differ (see the claim's
counterexample): the buffered version rereads `SHA3-256(seed)` while
the streaming version recomputes iteration 0 with an explicit counter. -/
theorem sha3_buffered_streaming_agree (h0 : Nat → Nat) (hcf : Nat → Nat → Nat)
    (tau fuel : Nat) (init out : List Int)
    (hrun : sha3ChallengeNoWrap (sha3Buf h0 hcf) tau fuel init = some out) :
    sha3Challenge (sha3Buf h0 hcf) tau fuel init = some out ∧
      sha3Streaming h0 hcf tau fuel init = some out := by
  rw [sha3ChallengeNoWrap] at hrun
  cases hres : genLoop (fun p i => drawNoWrap (sha3Buf h0 hcf) fuel p i)
      (List.range' (256 - tau) tau) (zeroAll init) (bytesLE8 (sha3Buf h0 hcf)) 8 with
  | none => rw [hres] at hrun; exact absurd hrun (by simp)
  | some res =>
    rw [hres] at hrun
    simp only [Option.map_some'] at hrun
    constructor
    · obtain ⟨t', hB, _⟩ := genLoop_sim
        (fun p i => drawNoWrap (sha3Buf h0 hcf) fuel p i)
        (fun p i => sha3Draw (sha3Buf h0 hcf) fuel p i)
        (fun p q => p = q ∧ 8 ≤ p ∧ p ≤ 128)
        (by
          intro s t i b s' hR hA
          obtain ⟨rfl, hs8, hs128⟩ := hR
          obtain ⟨hB, hb8, hb128⟩ :=
            drawNoWrap_sim_buffered (sha3Buf h0 hcf) fuel s i b s' hs8 hs128 hA
          exact ⟨s', hB, rfl, hb8, hb128⟩)
        (List.range' (256 - tau) tau) (zeroAll init) (bytesLE8 (sha3Buf h0 hcf))
        8 8 res ⟨rfl, by omega, by omega⟩ hres
      rw [sha3Challenge, hB]
      simpa using hrun
    · obtain ⟨t', hB, _⟩ := genLoop_sim
        (fun p i => drawNoWrap (sha3Buf h0 hcf) fuel p i)
        (fun s i => drawFrom (stRead hcf) fuel s i)
        (fun p t => 8 ≤ p ∧ p ≤ 128 ∧ t = stOf h0 hcf p)
        (by
          intro s t i b s' hR hA
          obtain ⟨hs8, hs128, rfl⟩ := hR
          obtain ⟨_, hb8, hb128⟩ :=
            drawNoWrap_sim_buffered (sha3Buf h0 hcf) fuel s i b s' hs8 hs128 hA
          exact ⟨stOf h0 hcf s',
            drawNoWrap_sim_streaming h0 hcf fuel s i b s' hs8 hs128 hA,
            hb8, hb128, rfl⟩)
        (List.range' (256 - tau) tau) (zeroAll init) (bytesLE8 (sha3Buf h0 hcf))
        8 (stOf h0 hcf 8) res ⟨by omega, by omega, rfl⟩ hres
      rw [sha3Streaming]
      have hst : stOf h0 hcf 8 = ⟨0, 8, h0⟩ := by norm_num [stOf]
      have hsg : bytesLE8 (sha3Buf h0 hcf) = bytesLE8 h0 := rfl
      rw [hst, hsg] at hB
      rw [hB]
      simpa using hrun

/-! ## FixedDigest buffer discipline (claim C5) -/

/-- Generic congruence for the challenge loop: if two draws agree on all
states satisfying an invariant preserved by the first draw, the loops
agree. -/
theorem genLoop_congr {σ : Type} (dA dB : σ → Nat → Option (Nat × σ))
    (P : σ → Prop)
    (h : ∀ s i, P s → dA s i = dB s i ∧ (∀ b s', dA s i = some (b, s') → P s')) :
    ∀ (is : List Nat) (cs : List Int) (sg : Nat) (s : σ), P s →
      genLoop dA is cs sg s = genLoop dB is cs sg s := by
  intro is
  induction is with
  | nil => intro cs sg s _; rfl
  | cons i is ih =>
    intro cs sg s hP
    obtain ⟨heq, hpres⟩ := h s i hP
    rw [genLoop, genLoop, ← heq]
    cases hdr : dA s i with
    | none => rfl
    | some bs =>
      obtain ⟨b, s'⟩ := bs
      exact ih _ _ s' (hpres b s' hdr)

theorem sha3Draw_congr (buf buf' : Nat → Nat)
    (hagree : ∀ k, k < 128 → buf k = buf' k) :
    ∀ (fuel p i : Nat), p ≤ 128 →
      sha3Draw buf fuel p i = sha3Draw buf' fuel p i ∧
        (∀ b p', sha3Draw buf fuel p i = some (b, p') → p' ≤ 128) := by
  intro fuel
  induction fuel with
  | zero => intro p i _; exact ⟨rfl, by intro b p' h; simp [sha3Draw, drawFrom] at h⟩
  | succ fuel ih =>
    intro p i hp
    have hql : (if 128 ≤ p then 8 else p) < 128 := by split <;> omega
    have hr : bufRead buf p =
        (buf (if 128 ≤ p then 8 else p), (if 128 ≤ p then 8 else p) + 1) := by
      unfold bufRead; split <;> rfl
    have hr' : bufRead buf' p =
        (buf' (if 128 ≤ p then 8 else p), (if 128 ≤ p then 8 else p) + 1) := by
      unfold bufRead; split <;> rfl
    have hbb : buf (if 128 ≤ p then 8 else p) = buf' (if 128 ≤ p then 8 else p) :=
      hagree _ hql
    obtain ⟨ihe, ihb⟩ := ih ((if 128 ≤ p then 8 else p) + 1) i (by omega)
    constructor
    · rw [sha3Draw, sha3Draw, drawFrom, drawFrom, hr, hr', hbb]
      dsimp only
      by_cases hlt : i < buf' (if 128 ≤ p then 8 else p)
      · rw [if_pos hlt, if_pos hlt]
        exact ihe
      · rw [if_neg hlt, if_neg hlt]
    · intro b p' hsome
      rw [sha3Draw, drawFrom, hr] at hsome
      by_cases hlt : i < buf (if 128 ≤ p then 8 else p)
      · rw [if_pos hlt] at hsome
        exact ihb b p' hsome
      · rw [if_neg hlt] at hsome
        injection hsome with h2
        injection h2 with _ h4
        omega

/-- Claim C5, part 1: `poly_challenge_sha3` draws all position bytes and
sign bits from the fixed 128-byte buffer only — the output is invariant
under changing the buffer beyond byte 127 (no refill is ever observed). -/
theorem sha3Challenge_local (buf buf' : Nat → Nat) (tau fuel : Nat)
    (init : List Int) (hagree : ∀ k, k < 128 → buf k = buf' k) :
    sha3Challenge buf tau fuel init = sha3Challenge buf' tau fuel init := by
  have hsg : bytesLE8 buf = bytesLE8 buf' := by
    unfold bytesLE8
    rw [hagree 0 (by norm_num), hagree 1 (by norm_num), hagree 2 (by norm_num),
      hagree 3 (by norm_num), hagree 4 (by norm_num), hagree 5 (by norm_num),
      hagree 6 (by norm_num), hagree 7 (by norm_num)]
  have hloop := genLoop_congr (fun p i => sha3Draw buf fuel p i)
    (fun p i => sha3Draw buf' fuel p i) (fun p => p ≤ 128)
    (by
      intro s i hP
      obtain ⟨he, hb⟩ := sha3Draw_congr buf buf' hagree fuel s i hP
      exact ⟨he, fun b s' hs => hb b s' hs⟩)
    (List.range' (256 - tau) tau) (zeroAll init) (bytesLE8 buf) 8 (by omega)
  rw [sha3Challenge, sha3Challenge, hloop, hsg]

/-- Claim C5, part 2: exhausting the 128-byte buffer is defined,
deterministic behavior — the position index simply wraps back to 8, so a
draw from any exhausted position behaves exactly like a draw from
position 8. -/
theorem sha3Draw_wrap (buf : Nat → Nat) (fuel p i : Nat) (hp : 128 ≤ p) :
    sha3Draw buf fuel p i = sha3Draw buf fuel 8 i := by
  cases fuel with
  | zero => rfl
  | succ fuel =>
    rw [sha3Draw, sha3Draw, drawFrom, drawFrom,
      show bufRead buf p = bufRead buf 8 by
        unfold bufRead; rw [if_pos hp, if_neg (by norm_num)]]

theorem cycDist_step (p k : Nat) (hk8 : 8 ≤ k) (hk128 : k < 128)
    (hne : (if 128 ≤ p then 8 else p) ≠ k) :
    cycDist ((if 128 ≤ p then 8 else p) + 1) k < cycDist p k := by
  unfold cycDist
  by_cases hp : 128 ≤ p
  · rw [if_pos hp] at hne
    simp only [if_pos hp]
    split_ifs <;> omega
  · rw [if_neg hp] at hne
    simp only [if_neg hp]
    split_ifs <;> omega

theorem sha3Draw_success (buf : Nat → Nat) :
    ∀ (fuel p i k : Nat), 8 ≤ k → k < 128 → buf k ≤ i → cycDist p k < fuel →
      ∃ b p', sha3Draw buf fuel p i = some (b, p') := by
  intro fuel
  induction fuel with
  | zero => intro p i k _ _ _ hd; omega
  | succ fuel ih =>
    intro p i k hk8 hk128 hbk hd
    have hr : bufRead buf p =
        (buf (if 128 ≤ p then 8 else p), (if 128 ≤ p then 8 else p) + 1) := by
      unfold bufRead; split <;> rfl
    rw [sha3Draw, drawFrom, hr]
    by_cases hlt : i < buf (if 128 ≤ p then 8 else p)
    · rw [if_pos hlt]
      have hqk : (if 128 ≤ p then 8 else p) ≠ k := by
        intro he; rw [he] at hlt; omega
      refine ih ((if 128 ≤ p then 8 else p) + 1) i k hk8 hk128 hbk ?_
      have hstep := cycDist_step p k hk8 hk128 hqk
      omega
    · rw [if_neg hlt]
      exact ⟨_, _, rfl⟩

theorem cycDist_lt (p k : Nat) (hk : k < 128) : cycDist p k < 248 := by
  unfold cycDist
  split_ifs <;> omega

/-- Claim C5, part 3: the generator never fails.  As long as one byte of
the buffer's position range `[8, 128)` is at most `256 - tau` (true for
every genuine SHA3 buffer and the repository's TAU values), every draw —
wrapped or not — succeeds and the whole generator returns a polynomial. -/
theorem sha3Challenge_total (buf : Nat → Nat) (tau : Nat) (init : List Int)
    (m : Nat) (hm8 : 8 ≤ m) (hm128 : m < 128) (hbm : buf m ≤ 256 - tau) :
    ∃ out, sha3Challenge buf tau 248 init = some out := by
  have hloop : ∀ (is : List Nat) (cs : List Int) (sg p : Nat),
      (∀ i ∈ is, 256 - tau ≤ i) →
      ∃ res, genLoop (fun p i => sha3Draw buf 248 p i) is cs sg p = some res := by
    intro is
    induction is with
    | nil => intro cs sg p _; exact ⟨_, rfl⟩
    | cons i is ih =>
      intro cs sg p hge
      obtain ⟨b, p', hdraw⟩ := sha3Draw_success buf 248 p i m hm8 hm128
        (le_trans hbm (hge i (by simp))) (cycDist_lt p m hm128)
      obtain ⟨res, hres⟩ := ih (place cs i b (signVal sg)) (sg / 2) p'
        (fun j hj => hge j (by simp [hj]))
      exact ⟨res, by rw [genLoop, hdraw]; exact hres⟩
  obtain ⟨res, hres⟩ := hloop (List.range' (256 - tau) tau) (zeroAll init)
    (bytesLE8 buf) 8
    (by intro i hi; have := List.mem_range'_1.mp hi; omega)
  exact ⟨res.1, by rw [sha3Challenge, hres]; rfl⟩

/-! ## Claim theorems -/

/-- Claim C1 (amended).  For the Standard and FixedDigest variants the
claim holds as stated: whenever `poly_challenge_sha3` (or the
spec-modelled Standard generator) completes, its output has exactly TAU
nonzero coefficients, all of magnitude 1.  For the ExpandedRange variant
only the amended statement holds: at most TAU nonzero coefficients, all
of magnitude at most 2 — the placed value `(field mod 5) - 2` is 0 for
the field values 2 and 7, so a placement can leave a zero behind and
`poly_challenge_expanded` can produce fewer than TAU nonzero entries
(see the counterexample). -/
theorem claim1_challenge_weight :
    (∀ (buf : Nat → Nat) (tau fuel : Nat) (init out : List Int), tau ≤ 256 →
        init.length = 256 → sha3Challenge buf tau fuel init = some out →
        countNonzero out = tau ∧ ∀ x ∈ out, x = 0 ∨ x = 1 ∨ x = -1) ∧
    (∀ (sq : Nat → Nat → Nat) (tau fuel : Nat) (init out : List Int), tau ≤ 256 →
        init.length = 256 → stdChallenge sq tau fuel init = some out →
        countNonzero out = tau ∧ ∀ x ∈ out, x = 0 ∨ x = 1 ∨ x = -1) ∧
    (∀ (sq : Nat → Nat → Nat) (tau fuel : Nat) (init out : List Int), tau ≤ 256 →
        init.length = 256 → expChallenge sq tau fuel init = some out →
        countNonzero out ≤ tau ∧ ∀ x ∈ out, -2 ≤ x ∧ x ≤ 2) := by
  refine ⟨?_, ?_, ?_⟩
  · intro buf tau fuel init out htau hinit hrun
    exact (sha3Challenge_weight buf tau fuel init out htau hinit hrun).2
  · intro sq tau fuel init out htau hinit hrun
    exact (stdChallenge_weight sq tau fuel init out htau hinit hrun).2
  · intro sq tau fuel init out htau hinit hrun
    exact (expChallenge_weight sq tau fuel init out htau hinit hrun).2

set_option maxRecDepth 400000 in
/-- Witness for claim C1 at TAU = 39 on concrete streams. -/
theorem claim1_witness : countNonzero outA = 39 ∧ countNonzero outB ≤ 39 :=
  ⟨(claim1_challenge_weight.1 zbuf 39 1000 zinit outA (by norm_num)
      (by simp [zinit]) (by decide)).1,
   (claim1_challenge_weight.2.2 zsq 39 1000 zinit outB (by norm_num)
      (by simp [zinit]) (by decide)).1⟩

set_option maxRecDepth 400000 in
/-- Counterexample for claim C1 as stated: on the stream `cxSq` (first
3-bit field = 2), `poly_challenge_expanded` with TAU = 39 completes and
produces a polynomial with only 38 nonzero coefficients. -/
theorem claim1_counterexample :
    expChallenge cxSq 39 1000 zinit = some cxOut ∧ countNonzero cxOut ≠ 39 :=
  ⟨by decide, by decide⟩

/-- Claim C2 (amended).  The RelaxedBound acceptance region
(`norm < GAMMA1 - 2*BETA`) is a subset — not a superset — of Strict's
(`norm < GAMMA1 - BETA`) for nonnegative BETA: everything RelaxedBound
accepts, Strict also accepts.  The claimed direction is refuted by the
counterexample. -/
theorem claim2_relaxed_subset :
    ∀ (beta : Int) (a : SignAttempt), 0 ≤ beta →
      relaxedAccept beta a = true → strictAccept beta a = true := by
  intro beta a hb h
  unfold relaxedAccept at h
  unfold strictAccept
  rw [Bool.and_eq_true] at h ⊢
  refine ⟨?_, h.2⟩
  have hz := of_decide_eq_true h.1
  exact decide_eq_true (by omega)

/-- Witness for claim C2 at BETA = 100. -/
theorem claim2_witness : strictAccept 100 ⟨0, true⟩ = true :=
  claim2_relaxed_subset 100 ⟨0, true⟩ (by norm_num) (by decide)

/-- Counterexample for claim C2 as stated: with BETA = 100 the attempt
with response norm 130971 is accepted by Strict
(130971 < 131072 - 100) but rejected by RelaxedBound
(130971 >= 131072 - 200). -/
theorem claim2_counterexample :
    strictAccept 100 ⟨130971, true⟩ = true ∧
      relaxedAccept 100 ⟨130971, true⟩ = false := by
  constructor <;> decide

/-- Claim C3: the derived signature size `CRYPTO_BYTES` is 2420 bytes
for the baseline parameter set (TAU=39, OMEGA=80, BETA=78) and
2410 bytes for the modified challenge bounds (TAU=50, OMEGA=70,
BETA=100), with K=4, L=4, CTILDEBYTES=32, POLYZ_PACKEDBYTES=576. -/
theorem claim3_signature_sizes :
    cryptoBytes config1 = 2420 ∧ cryptoBytes config3 = 2410 := by
  constructor <;> decide

/-- Claim C4: in `poly_challenge_expanded` every placed coefficient is
`(field mod 5) - 2` applied to the 3-bit field `signs & 7`; the eight
field values map onto {-2,-1,0,1,2} with fields 5, 6, 7 hitting
{-2,-1,0} a second time; every placed value lies in [-2, 2]. -/
theorem claim4_expanded_mapping :
    (∀ sg : Nat, expVal sg = expMap (sg % 8)) ∧
    (∀ f : Nat, f < 8 → -2 ≤ expMap f ∧ expMap f ≤ 2) ∧
    (expMap 5 = expMap 0 ∧ expMap 6 = expMap 1 ∧ expMap 7 = expMap 2 ∧
      expMap 0 = -2 ∧ expMap 1 = -1 ∧ expMap 2 = 0 ∧
      expMap 3 = 1 ∧ expMap 4 = 2) ∧
    (∀ (sq : Nat → Nat → Nat) (fuel i : Nat) (is : List Nat) (cs : List Int)
        (sg : Nat) (s : Nat × Nat) (b : Nat) (s' : Nat × Nat),
        streamDraw sq fuel s i = some (b, s') →
        ∃ sg2 s2, expLoop sq fuel (i :: is) cs sg s =
          expLoop sq fuel is (place cs i b (expMap (sg % 8))) sg2 s2) := by
  refine ⟨fun sg => expVal_eq_expMap sg, ?_, by decide, ?_⟩
  · intro f hf
    have h5 : f % 5 < 5 := Nat.mod_lt _ (by norm_num)
    unfold expMap
    omega
  · intro sq fuel i is cs sg s b s' hdraw
    rw [expLoop, hdraw]
    dsimp only
    by_cases h1 : 8 ≤ s'.2 ∧ i % 21 = 0
    · rw [if_pos h1]
      by_cases h2 : s'.2 + 8 ≤ 136
      · rw [if_pos h2]; exact ⟨_, _, rfl⟩
      · rw [if_neg h2]; exact ⟨_, _, rfl⟩
    · rw [if_neg h1]; exact ⟨_, _, rfl⟩

/-- Witness for claim C4 on a concrete draw. -/
theorem claim4_witness :
    ∃ sg2 s2, expLoop zsq 1000 (255 :: []) zinit 3 (0, 8) =
      expLoop zsq 1000 [] (place zinit 255 0 (expMap (3 % 8))) sg2 s2 :=
  claim4_expanded_mapping.2.2.2 zsq 1000 255 [] zinit 3 (0, 8) 0 (0, 9) (by decide)

/-- Claim C5: `poly_challenge_sha3` (1) reads positions and signs only
from its fixed 128-byte buffer — the output is invariant under any
change of the byte source beyond index 127, so there is no refill;
(2) exhaustion of the buffer is defined, wrap-to-8 behavior (reading
from an exhausted position equals reading from position 8), reproducible
from the buffer alone; and (3) the generator never fails: whenever some
buffer byte in the position range is at most 256 - TAU, the whole
generator completes with a polynomial. -/
theorem claim5_fixed_digest :
    (∀ (buf buf' : Nat → Nat) (tau fuel : Nat) (init : List Int),
        (∀ k, k < 128 → buf k = buf' k) →
        sha3Challenge buf tau fuel init = sha3Challenge buf' tau fuel init) ∧
    (∀ (buf : Nat → Nat) (fuel p i : Nat), 128 ≤ p →
        sha3Draw buf fuel p i = sha3Draw buf fuel 8 i) ∧
    (∀ (buf : Nat → Nat) (tau : Nat) (init : List Int) (m : Nat),
        8 ≤ m → m < 128 → buf m ≤ 256 - tau →
        ∃ out, sha3Challenge buf tau 248 init = some out) :=
  ⟨fun buf buf' tau fuel init h => sha3Challenge_local buf buf' tau fuel init h,
   fun buf fuel p i hp => sha3Draw_wrap buf fuel p i hp,
   fun buf tau init m hm8 hm128 hbm => sha3Challenge_total buf tau init m hm8 hm128 hbm⟩

set_option maxRecDepth 400000 in
/-- Witness for claim C5 on concrete buffers. -/
theorem claim5_witness :
    sha3Challenge zbuf 39 1000 zinit = sha3Challenge zbufTail 39 1000 zinit ∧
    sha3Draw zbuf 5 130 250 = sha3Draw zbuf 5 8 250 ∧
    (∃ out, sha3Challenge zbuf 39 248 zinit = some out) :=
  ⟨claim5_fixed_digest.1 zbuf zbufTail 39 1000 zinit (by decide),
   claim5_fixed_digest.2.1 zbuf 5 130 250 (by norm_num),
   claim5_fixed_digest.2.2 zbuf 39 zinit 8 (by norm_num) (by norm_num) (by decide)⟩

/-- Claim C6: `should_bypass_rejection` fires on exactly 26 of the 256
byte values (26/256, about 10.16%, within 10 percent plus or minus 2
percentage points), and the ProbabilisticBypass policy consults it only
on attempts the Strict check rejects. -/
theorem claim6_bypass :
    ((List.range 256).filter (fun b => should_bypass_rejection b)).length = 26 ∧
    (8 * 256 ≤ 100 * 26 ∧ 100 * 26 ≤ 12 * 256) ∧
    (∀ (beta : Int) (a : SignAttempt) (byte : Nat),
        strictAccept beta a = true → probabilisticAccept beta a byte = true) ∧
    (∀ (beta : Int) (a : SignAttempt) (byte : Nat),
        strictAccept beta a = false →
        probabilisticAccept beta a byte = should_bypass_rejection byte) ∧
    (∀ byte : Nat, should_bypass_rejection byte = true ↔ byte % 10 = 0) := by
  refine ⟨by decide, by decide, ?_, ?_, ?_⟩
  · intro beta a byte h
    simp [probabilisticAccept, h]
  · intro beta a byte h
    simp [probabilisticAccept, h]
  · intro byte
    simp [should_bypass_rejection]

/-- Witness for claim C6 on concrete attempts and bytes. -/
theorem claim6_witness :
    probabilisticAccept 100 ⟨0, true⟩ 7 = true ∧
      probabilisticAccept 100 ⟨131072, true⟩ 20 = should_bypass_rejection 20 :=
  ⟨claim6_bypass.2.2.1 100 ⟨0, true⟩ 7 (by decide),
   claim6_bypass.2.2.2.1 100 ⟨131072, true⟩ 20 (by decide)⟩

/-- Claim C7 (amended).  TAU and OMEGA range violations are fatal
(`#error`) exactly as claimed, but the BETA consistency check of
`params_tweaked.h` fires only when `BETA < TAU * ETA` — a configuration
with `BETA > TAU * ETA`, in particular the relaxed-rejection
configuration TAU=39, ETA=2, BETA=100, is not flagged. -/
theorem claim7_validation :
    (∀ c : DilConfig, cfgFatal c = true ↔
      (c.tau < 1 ∨ 256 < c.tau ∨ c.omegaHint < c.kk ∨ 256 * c.kk < c.omegaHint)) ∧
    (∀ c : DilConfig, betaWarn c = true ↔ c.beta < c.tau * c.eta) ∧
    (betaWarn config4 = false ∧ config4.beta ≠ config4.tau * config4.eta) ∧
    (cfgFatal config1 = false ∧ cfgFatal config3 = false ∧ cfgFatal config4 = false ∧
      betaWarn config1 = false ∧ betaWarn config3 = false) := by
  refine ⟨?_, ?_, by decide, by decide⟩
  · intro c
    simp only [cfgFatal, tauFatal, omegaFatal, Bool.or_eq_true, decide_eq_true_eq]
    omega
  · intro c
    simp [betaWarn]

/-- Counterexample for claim C7 as stated: config4 has BETA = 100 which
differs from TAU * ETA = 78, yet the code's warning condition
`BETA < TAU * ETA` is false, so the configuration is not flagged. -/
theorem claim7_counterexample :
    config4.beta ≠ config4.tau * config4.eta ∧ betaWarn config4 = false ∧
      cfgFatal config4 = false := by
  refine ⟨by decide, by decide, by decide⟩

set_option maxRecDepth 1000000 in
set_option maxHeartbeats 8000000 in
/-- Claim C8: for every compression width used by a parameter set and
every coefficient x below Q, the codec round-trip error (measured
modulo Q) is at most the ceiling of Q / 2^(bits+1), and width 0
compresses everything to 0 without error. -/
theorem claim8_codec :
    (∀ bits ∈ codecBits, ∀ x : Nat, x < 3329 →
        roundTripErr x bits ≤ errBound bits) ∧
    (∀ x : Nat, compress x 0 = 0) := by
  constructor
  · have h : codecOk = true := by decide
    rw [codecOk, List.all_eq_true] at h
    intro bits hbits x hx
    have h1 := h bits hbits
    rw [List.all_eq_true] at h1
    have h2 := h1 x (List.mem_range.mpr hx)
    simpa using h2
  · intro x
    simp [compress, Nat.mod_one]

/-- Witness for claim C8 at width 4, coefficient 1000. -/
theorem claim8_witness : roundTripErr 1000 4 ≤ errBound 4 ∧ compress 77 0 = 0 :=
  ⟨claim8_codec.1 4 (by decide) 1000 (by decide), claim8_codec.2 77⟩

/-- Claim C9: both challenge generators are pure functions of the seed's
byte stream - in particular the caller-visible output buffer is fully
zeroed before use, so the result is independent of whatever a previous
call (or any other code) left in it, and two calls on identical streams
are bit-identical. -/
theorem claim9_deterministic :
    ∀ (buf : Nat → Nat) (sq : Nat → Nat → Nat) (tau fuel : Nat)
      (init1 init2 : List Int), init1.length = 256 → init2.length = 256 →
      sha3Challenge buf tau fuel init1 = sha3Challenge buf tau fuel init2 ∧
        expChallenge sq tau fuel init1 = expChallenge sq tau fuel init2 := by
  intro buf sq tau fuel init1 init2 h1 h2
  have hz : zeroAll init1 = zeroAll init2 := by
    rw [zeroAll_eq_replicate init1 h1, zeroAll_eq_replicate init2 h2]
  constructor
  · rw [sha3Challenge, sha3Challenge, hz]
  · rw [expChallenge, expChallenge, hz]

/-- Witness for claim C9 on two different prior buffer contents. -/
theorem claim9_witness :
    sha3Challenge zbuf 1 1000 (List.replicate 256 5) =
        sha3Challenge zbuf 1 1000 zinit ∧
      expChallenge zsq 1 1000 (List.replicate 256 5) =
        expChallenge zsq 1 1000 zinit :=
  claim9_deterministic zbuf zsq 1 1000 (List.replicate 256 5) zinit
    (by rw [List.length_replicate]) (by rw [zinit, List.length_replicate])

set_option maxRecDepth 400000 in
/-- Counterexample for claim C10 as stated: on the abstract hash
`cxH0`/`cxHc` with TAU = 39 the 38th placement exhausts the 128-byte
buffer; the buffered generator wraps and rereads `SHA3-256(seed)` while
the streaming generator recomputes iteration 0 as
`SHA3-256(seed || counter)`, and the two outputs differ. -/
theorem claim10_counterexample :
    sha3Challenge (sha3Buf cxH0 cxHc) 39 1000 zinit ≠
      sha3Streaming cxH0 cxHc 39 1000 zinit := by
  decide

set_option maxRecDepth 400000 in
/-- Witness for claim C10 on the all-zero hash with TAU = 39. -/
theorem claim10_witness :
    sha3Challenge (sha3Buf zbuf zsq) 39 1000 zinit = some outA ∧
      sha3Streaming zbuf zsq 39 1000 zinit = some outA :=
  sha3_buffered_streaming_agree zbuf zsq 39 1000 zinit outA (by decide)

end KDTweaks
